import Mathlib

/-!
Verification of the ModelCenter fine-tuning drivers.

Shallow embedding of:
  * `make_input` (src/src/finetune_cpm1.py, lines 74-91): fixed-width input packing;
  * `LCQMC_Dataset.__init__` (src/src/finetune_cpm1.py, lines 93-124): the row-index
    partition of a TSV file over distributed workers;
  * `clip_grad_norm` (src/src/finetune_cpm1.py, lines 154-177): gradient-norm clipping
    with a cross-worker all-reduce;
  * the evaluation all-gather (src/src/finetune_gpt2.py, lines 200-209);
  * `Embedding.forward` / `Embedding.projection` (src/model_center/layer/embedding.py).

Tensors of token ids are embedded as `List ℤ`, gradient tensors as `List ℝ` (exact real
arithmetic stands in for floating point), boolean masks as `List Bool`.  A parameter is
represented by its `.grad` field, `Option (List ℝ)` (`none` = gradient not tracked).
An assertion failure is embedded as `Option.none`.
-/

/-! ## Input packing: `make_input` (finetune_cpm1.py lines 74-91) -/

/-- Embedding of `make_input(lef_tokens, rig_tokens, spans, max_length)`.
The Python builds `input = lef_tokens + [0]*spans + rig_tokens`, asserts
`len(input) < max_length` (embedded as returning `none`), writes `input` into a
zero-initialised width-`max_length` tensor, records the true length, and builds the
context mask `(i < len(lef_tokens)) | (i >= len(lef_tokens) + spans)` over
`i = 0..max_length-1`, together with an all-zero `input_span` tensor. -/
def make_input (lef_tokens rig_tokens : List ℤ) (spans max_length : ℕ) :
    Option (List ℤ × ℕ × List Bool × List ℤ) :=
  if (lef_tokens ++ List.replicate spans 0 ++ rig_tokens).length < max_length then
    some (lef_tokens ++ List.replicate spans 0 ++ rig_tokens
            ++ List.replicate
                (max_length - (lef_tokens ++ List.replicate spans 0 ++ rig_tokens).length) 0,
          (lef_tokens ++ List.replicate spans 0 ++ rig_tokens).length,
          (List.range max_length).map
            (fun i => decide (i < lef_tokens.length) || decide (lef_tokens.length + spans ≤ i)),
          List.replicate max_length 0)
  else
    none

/-- Context mask as the specification words it: true at every position except the
reserved span region `len(lef_tokens) ≤ i < len(lef_tokens) + spans`. -/
def spec_context_mask (lef_len spans max_length : ℕ) : List Bool :=
  (List.range max_length).map
    (fun i => decide (¬ (lef_len ≤ i ∧ i < lef_len + spans)))

/-! ## Dataset partition: `LCQMC_Dataset.__init__` (finetune_cpm1.py lines 93-124) -/

/-- Embedding of `max_id = (len(reader)-1) // world_size * world_size` computed by
`LCQMC_Dataset.__init__`; `R` is the total number of TSV rows including the header.
For `R ≥ 1` the Python floor division agrees with truncated `Nat` division. -/
def max_id (R W : ℕ) : ℕ := (R - 1) / W * W

/-- Embedding of the row-index selection of `LCQMC_Dataset.__init__`: the loop
enumerates rows `i = 0..R-1` and keeps row `i` unless `i == 0 or i > max_id`
(header and trailing remainder are skipped) or `i % world_size != rank`.  The kept
examples are appended in index order, so the list of kept indices determines the
rank's data assignment. -/
def LCQMC_kept_rows (R W rank : ℕ) : List ℕ :=
  (List.range R).filter
    (fun i => !(decide (i = 0) || decide (max_id R W < i)) && decide (i % W = rank))

/-! ## Evaluation all-gather (finetune_gpt2.py lines 200-209) -/

/-- Modelled from the spec: `nccl.allGather` (the external collective invoked by the
evaluation driver; its implementation is not part of this repository) writes every
worker's local buffer into a pre-allocated global buffer of size
`local count x worker count`, ordered by worker rank — i.e. it produces the
rank-ordered concatenation of the per-worker buffers. -/
def allGather (locals : List (List ℤ)) : List ℤ := locals.flatten

/-! ## Gradient clipping: `clip_grad_norm` (finetune_cpm1.py lines 154-177) -/

/-- A gradient tensor, flattened to its list of entries; exact reals stand in for
floating point. -/
abbrev Grad := List ℝ

/-- One worker's `param_groups`: a list of groups, each a list of parameters
represented by their `.grad` field (`none` embeds `p.grad is None`). -/
abbrev ParamGroups := List (List (Option Grad))

/-- The distributed state: every worker's `param_groups`, indexed by rank.  The
`nccl.allReduce` in `clip_grad_norm` ranges over this list. -/
abbrev World := List ParamGroups

/-- Embedding of
`parameters = [p for group in param_groups for p in group['params'] if p.grad is not None]`. -/
def trackedGrads (param_groups : ParamGroups) : List Grad :=
  (param_groups.flatten).filterMap id

/-- Maximum of a list of reals, seeded with `0`.  It agrees with the Python `max`
whenever the list is non-empty and its entries are non-negative, which is the only
way it is used below (absolute values); Python raises on an empty generator. -/
noncomputable def foldMax (l : List ℝ) : ℝ := l.foldr max 0

/-- Embedding of `p.grad.data.abs().max()`: the maximal absolute entry of one tensor. -/
noncomputable def tensorMaxAbs (g : Grad) : ℝ := foldMax (g.map (fun x => |x|))

/-- The local part of the `'inf'` branch before the all-reduce:
`max(p.grad.data.abs().max() for p in parameters)`. -/
noncomputable def localMaxAbs (pg : ParamGroups) : ℝ :=
  foldMax ((trackedGrads pg).map tensorMaxAbs)

/-- Mathematical semantics of `p.grad.data.float().norm(norm_type)` for a finite
exponent `p` (the torch kernel is external to this repository): the Lp norm
`(sum of |x|^p)^(1/p)`. -/
noncomputable def tensorNorm (p : ℕ) (g : Grad) : ℝ :=
  ((g.map (fun x => |x| ^ p)).sum) ^ (1 / (p:ℝ))

/-- The local part of the finite-norm branch before the all-reduce: the accumulation
loop `total_norm_cuda += param_norm ** norm_type`. -/
noncomputable def localPowSum (p : ℕ) (pg : ParamGroups) : ℝ :=
  ((trackedGrads pg).map (fun g => (tensorNorm p g) ^ (p:ℝ))).sum

/-- The `norm_type` argument: the string `'inf'`, or a finite exponent (the code
converts it with `float(norm_type)`; we keep it as a natural exponent). -/
inductive NormType
  | inf : NormType
  | lp : ℕ → NormType

/-- The `norm_type` values for which the finite branch is a genuine norm: any finite
exponent must be at least 1 (`'inf'` has no side condition). -/
def validNT : NormType → Prop
  | NormType.inf => True
  | NormType.lp p => 1 ≤ p

/-- The aggregated `total_norm` after the cross-worker `nccl.allReduce`: a `"max"`
reduce of the per-worker maxima for `'inf'`, else a `"sum"` reduce of the per-worker
power sums followed by `** (1. / norm_type)`. -/
noncomputable def total_norm (nt : NormType) (world : World) : ℝ :=
  match nt with
  | NormType.inf => foldMax (world.map localMaxAbs)
  | NormType.lp p => ((world.map (localPowSum p)).sum) ^ (1 / (p:ℝ))

/-- Embedding of `clip_coef = float(max_norm * scale) / (total_norm + eps)` (line 173; the
commented-out lines 171-172 dividing `total_norm` by `scale` first are dead code). -/
noncomputable def clip_coef (max_norm scale tn eps : ℝ) : ℝ := max_norm * scale / (tn + eps)

/-- In-place `p.grad.data.mul_(clip_coef)` on one tensor. -/
def scaleGrad (c : ℝ) (g : Grad) : Grad := g.map (fun x => x * c)

/-- The scaling loop `for p in parameters: p.grad.data.mul_(clip_coef)` on one
worker: every tracked gradient is multiplied by `c`; parameters whose gradient is
`none` are untouched. -/
def scaleParams (c : ℝ) (pg : ParamGroups) : ParamGroups :=
  pg.map (fun group => group.map (Option.map (scaleGrad c)))

/-- Embedding of `clip_grad_norm(param_groups, max_norm, scale, norm_type, eps)`,
viewed as a function of the whole distributed state: compute the aggregated norm,
and when `clip_coef < 1` scale every worker's tracked gradients in place by
`clip_coef`; return the updated state together with the value `total_norm / scale`
the function returns on every worker. -/
noncomputable def clip_grad_norm (world : World) (max_norm scale : ℝ)
    (nt : NormType) (eps : ℝ) : World × ℝ :=
  (if clip_coef max_norm scale (total_norm nt world) eps < 1
     then world.map (scaleParams (clip_coef max_norm scale (total_norm nt world) eps))
     else world,
   total_norm nt world / scale)

/-- The concatenation of every worker's tracked gradient entries, in rank order. -/
def allGradEntries (world : World) : List ℝ := ((world.map trackedGrads).flatten).flatten

/-- The mathematical L-infinity norm of the concatenation of all workers' gradients,
as the specification words it: the global maximum absolute gradient entry. -/
noncomputable def specInfNorm (world : World) : ℝ :=
  foldMax ((allGradEntries world).map (fun x => |x|))

/-- The mathematical Lp norm of the concatenation of all workers' gradients, as the
specification words it: the p-th root of the sum over all workers of the per-worker
sums of entries raised to the p-th power. -/
noncomputable def specLpNorm (p : ℕ) (world : World) : ℝ :=
  (((allGradEntries world).map (fun x => |x| ^ p)).sum) ^ (1 / (p:ℝ))

/-- The two-worker scenario of the specification: worker 1 holds the single gradient
tensor `[3, 4]`, worker 2 holds `[0, 0]`. -/
def scenarioWorld : World := [[[some [(3:ℝ), 4]]], [[some [0, 0]]]]

/-- The one-worker state used for the idempotence counterexample. -/
def soloWorld : World := [[[some [(3:ℝ), 4]]]]

/-! ## Embedding layer (model_center/layer/embedding.py lines 27-49) -/

/-- The state of an `Embedding` module read by its methods: the shared weight table
(`vocab_size` rows of `embedding_size` entries), `self.dim_model = embedding_size`,
and the `length_scale` flag.  The Python methods contain no field assignment, so the
module is embedded as this immutable state and the methods as pure functions of it:
in particular the stored weight is never modified. -/
structure Embedding where
  weight : List (List ℝ)
  dim_model : ℕ
  length_scale : Bool

/-- Modelled from the spec: the external `cpm_kernels` kernel
`OpEmbedding.apply(ids, weight)` (not part of this repository) is the raw embedding
lookup — row `ids[k]` of the weight table for each position `k`. -/
def OpEmbedding (ids : List ℕ) (weight : List (List ℝ)) : List (List ℝ) :=
  ids.map (fun i => weight.getD i [])

/-- Modelled from the spec: the external `ct.transpose` kernel swaps the last two
tensor dimensions; on a single matrix it is transposition. -/
def ct_transpose (x : List (List ℝ)) : List (List ℝ) := x.transpose

/-- Dot product of two vectors. -/
def dotProduct (a b : List ℝ) : ℝ := (List.zipWith (fun u v => u * v) a b).sum

/-- Modelled from the spec: the external `F.linear(x, w)` computes `x` times the
transpose of `w`: entry `[k][v]` is the dot product of row `k` of `x` with row `v`
of `w`. -/
def F_linear (x w : List (List ℝ)) : List (List ℝ) :=
  x.map (fun row => w.map (fun wrow => dotProduct row wrow))

/-- Embedding of `Embedding.forward`: look the ids up in the shared weight table,
then divide by `sqrt(self.dim_model)` exactly when `self.length_scale` is set. -/
noncomputable def Embedding.forward (e : Embedding) (ids : List ℕ) : List (List ℝ) :=
  if e.length_scale
    then (OpEmbedding ids e.weight).map (List.map (fun v => v / Real.sqrt e.dim_model))
    else OpEmbedding ids e.weight

/-- Embedding of `Embedding.projection`: divide the input by `sqrt(self.dim_model)`
exactly when `self.length_scale` is set, then apply `F.linear` to the transposed
input against the same shared weight table. -/
noncomputable def Embedding.projection (e : Embedding) (x : List (List ℝ)) :
    List (List ℝ) :=
  F_linear
    (ct_transpose
      (if e.length_scale then x.map (List.map (fun v => v / Real.sqrt e.dim_model)) else x))
    e.weight

/-! ## Theorems -/

theorem make_input_length_eq (lef rig : List ℤ) (spans : ℕ) :
    (lef ++ List.replicate spans (0:ℤ) ++ rig).length
      = lef.length + spans + rig.length := by
  simp
  omega

/-- Claim C6: whenever `len(lef_tokens) + spans + len(rig_tokens) < max_length`,
`make_input` succeeds and returns: the token list `lef_tokens ++ spans zeros ++
rig_tokens` zero-padded to width `max_length`; the true length equal to the combined
count; the context mask true everywhere except the reserved span region; and the
all-zero span tensor. -/
theorem make_input_packs_correctly (lef rig : List ℤ) (spans max_length : ℕ)
    (h : lef.length + spans + rig.length < max_length) :
    make_input lef rig spans max_length =
      some (lef ++ List.replicate spans 0 ++ rig
              ++ List.replicate (max_length - (lef.length + spans + rig.length)) 0,
            lef.length + spans + rig.length,
            spec_context_mask lef.length spans max_length,
            List.replicate max_length 0) := by
  unfold make_input
  rw [make_input_length_eq]
  rw [if_pos h]
  have hmask : ∀ i : ℕ,
      (decide (i < lef.length) || decide (lef.length + spans ≤ i))
        = decide (¬ (lef.length ≤ i ∧ i < lef.length + spans)) := by
    intro i
    have : (decide (i < lef.length) || decide (lef.length + spans ≤ i))
        = decide (i < lef.length ∨ lef.length + spans ≤ i) := by
      by_cases h1 : i < lef.length <;> by_cases h2 : lef.length + spans ≤ i <;> simp [h1, h2]
    rw [this]
    exact decide_eq_decide.mpr (by omega)
  simp [spec_context_mask, hmask, List.append_assoc]

/-- Closed witness for claim C6 at `lef = [1]`, `rig = [2]`, `spans = 1`,
`max_length = 4`. -/
theorem make_input_packs_correctly_witness :
    ([(1:ℤ)].length + 1 + [(2:ℤ)].length < 4) ∧
      make_input [1] [2] 1 4 = some ([1, 0, 2, 0], 3, [true, false, true, true], [0, 0, 0, 0]) :=
  ⟨by decide,
   (make_input_packs_correctly [1] [2] 1 4 (by decide)).trans (by decide)⟩

/-- Claim C7: `make_input` fails (the Python assertion `length < max_length` fires)
exactly when the combined length `len(lef_tokens) + spans + len(rig_tokens)` is at
least `max_length`; below that bound it performs no other validation and succeeds. -/
theorem make_input_asserts_iff_overflow (lef rig : List ℤ) (spans max_length : ℕ) :
    make_input lef rig spans max_length = none ↔
      max_length ≤ lef.length + spans + rig.length := by
  unfold make_input
  rw [make_input_length_eq]
  by_cases h : lef.length + spans + rig.length < max_length
  · rw [if_pos h]
    simp
    omega
  · rw [if_neg h]
    simp
    omega

theorem range_filter_shifted_residue (W r : ℕ) (hW : 0 < W) (hr : r < W) :
    (List.range W).filter (fun j => decide ((j + 1) % W = r))
      = [if r = 0 then W - 1 else r - 1] := by
  have hcongr : ∀ j ∈ List.range W,
      (decide ((j + 1) % W = r)) = (decide (j = if r = 0 then W - 1 else r - 1)) := by
    intro j hj
    rw [List.mem_range] at hj
    apply decide_eq_decide.mpr
    rcases Nat.lt_or_ge (j + 1) W with h | h
    · rw [Nat.mod_eq_of_lt h]
      by_cases hr0 : r = 0 <;> simp [hr0] <;> omega
    · have hjW : j + 1 = W := by omega
      rw [hjW, Nat.mod_self]
      by_cases hr0 : r = 0 <;> simp [hr0] <;> omega
  rw [List.filter_congr hcongr]
  have hbeq : ∀ j ∈ List.range W,
      (decide (j = if r = 0 then W - 1 else r - 1)) = (j == if r = 0 then W - 1 else r - 1) := by
    intro j hj
    by_cases h : j = if r = 0 then W - 1 else r - 1 <;> simp [h]
  rw [List.filter_congr hbeq, List.filter_beq]
  have hmem : (if r = 0 then W - 1 else r - 1) ∈ List.range W := by
    rw [List.mem_range]
    by_cases hr0 : r = 0 <;> simp [hr0] <;> omega
  rw [List.count_eq_one_of_mem (List.nodup_range W) hmem]
  simp

theorem kept_core (W r : ℕ) (hW : 0 < W) (hr : r < W) : ∀ q : ℕ,
    (List.range (q * W + 1)).filter (fun i => decide (i ≠ 0) && decide (i % W = r))
      = (List.range q).map (fun k => k * W + (if r = 0 then W else r)) := by
  intro q
  induction q with
  | zero => simp
  | succ q ih =>
    rw [show (q + 1) * W + 1 = (q * W + 1) + W by ring]
    rw [List.range_add, List.filter_append, ih]
    rw [List.filter_map]
    have hcongr : ∀ j ∈ List.range W,
        ((fun i => decide (i ≠ 0) && decide (i % W = r)) ∘ (fun j => q * W + 1 + j)) j
          = (decide ((j + 1) % W = r)) := by
      intro j hj
      have hmod : (q * W + 1 + j) % W = (j + 1) % W := by
        rw [show q * W + 1 + j = (j + 1) + q * W by ring]
        exact Nat.add_mul_mod_self_right (j + 1) q W
      simp [hmod]
    rw [List.filter_congr hcongr, range_filter_shifted_residue W r hW hr]
    rw [List.range_succ, List.map_append]
    congr 1
    by_cases hr0 : r = 0 <;> simp [hr0] <;> omega

theorem kept_rows_eq_core (R W r : ℕ) (hW : 0 < W) (hR : 1 ≤ R) :
    LCQMC_kept_rows R W r
      = (List.range (max_id R W + 1)).filter
          (fun i => decide (i ≠ 0) && decide (i % W = r)) := by
  unfold LCQMC_kept_rows
  set m := max_id R W with hm
  have hmR : m + 1 ≤ R := by
    have := Nat.div_mul_le_self (R - 1) W
    rw [hm]
    unfold max_id
    omega
  obtain ⟨d, hd⟩ : ∃ d, R = (m + 1) + d := ⟨R - (m + 1), by omega⟩
  rw [hd, List.range_add, List.filter_append]
  have htail : ∀ l : List ℕ, (∀ a ∈ l, m < a) →
      l.filter (fun i => !(decide (i = 0) || decide (m < i)) && decide (i % W = r)) = [] := by
    intro l hl
    rw [List.filter_eq_nil_iff]
    intro a ha
    have hma := hl a ha
    simp [hma]
  rw [htail ((List.range d).map (fun x => (m + 1) + x))
        (by
          intro a ha
          rw [List.mem_map] at ha
          obtain ⟨x, _, hx⟩ := ha
          omega),
      List.append_nil]
  apply List.filter_congr
  intro i hi
  rw [List.mem_range] at hi
  have h1 : ¬ (m < i) := by omega
  simp [h1, decide_not]

/-- Claim C9: for a TSV file with `R` rows (header included) partitioned over
`W ≥ 1` workers, rank `r < W` is assigned exactly the data rows `i` with
`1 ≤ i ≤ (R-1)/W * W` and `i % W = r`, and every rank holds exactly `(R-1)/W`
examples — the equal-per-worker-count property the evaluation all-gather assumes. -/
theorem LCQMC_partition (R W r : ℕ) (hW : 0 < W) (hr : r < W) (hR : 1 ≤ R) :
    (∀ i, i ∈ LCQMC_kept_rows R W r ↔ (1 ≤ i ∧ i ≤ max_id R W ∧ i % W = r)) ∧
    (LCQMC_kept_rows R W r).length = (R - 1) / W := by
  have hmR : max_id R W + 1 ≤ R := by
    have := Nat.div_mul_le_self (R - 1) W
    unfold max_id
    omega
  constructor
  · intro i
    unfold LCQMC_kept_rows
    rw [List.mem_filter, List.mem_range]
    constructor
    · rintro ⟨hiR, hp⟩
      simp at hp
      exact ⟨by omega, by omega, hp.2⟩
    · rintro ⟨h1, h2, h3⟩
      refine ⟨by omega, ?_⟩
      simp [h3]
      omega
  · rw [kept_rows_eq_core R W r hW hR]
    have : max_id R W = (R - 1) / W * W := rfl
    rw [this, kept_core W r hW hr]
    simp

/-- Closed witness for claim C9 at `R = 8` rows, `W = 2` workers, rank `1`:
the assigned rows are characterised by `1 ≤ i ≤ 6 ∧ i % 2 = 1` and the rank
holds `(8-1)/2 = 3` examples. -/
theorem LCQMC_partition_witness :
    (0 < 2 ∧ 1 < 2 ∧ 1 ≤ 8) ∧
      ((∀ i, i ∈ LCQMC_kept_rows 8 2 1 ↔ (1 ≤ i ∧ i ≤ max_id 8 2 ∧ i % 2 = 1)) ∧
        (LCQMC_kept_rows 8 2 1).length = (8 - 1) / 2) :=
  ⟨⟨by decide, by decide, by decide⟩,
   LCQMC_partition 8 2 1 (by decide) (by decide) (by decide)⟩

/-- Claim C8: when every worker contributes the same number `n` of local predictions,
the gathered global list has exactly `worker count x n` entries (the size of the
pre-allocated buffer) and is the rank-ordered concatenation of the local lists:
entry `r * n + i` of the gathered list is entry `i` of worker `r`'s local list. -/
theorem allGather_rank_ordered (locals : List (List ℤ)) (n : ℕ)
    (h : ∀ l ∈ locals, l.length = n) :
    (allGather locals).length = locals.length * n ∧
    ∀ r i, r < locals.length → i < n →
      (allGather locals).getD (r * n + i) 0 = (locals.getD r []).getD i 0 := by
  induction locals with
  | nil =>
    refine ⟨by simp [allGather], ?_⟩
    intro r i hr _
    simp at hr
  | cons l ls ih =>
    have hl : l.length = n := h l (List.mem_cons_self l ls)
    have hrest : ∀ l' ∈ ls, l'.length = n := fun l' hl' => h l' (List.mem_cons_of_mem l hl')
    obtain ⟨ihlen, ihget⟩ := ih hrest
    constructor
    · show ((l :: ls).flatten).length = (l :: ls).length * n
      rw [List.flatten_cons, List.length_append]
      rw [show (ls.flatten).length = ls.length * n from ihlen, hl]
      rw [List.length_cons, Nat.succ_mul]
      omega
    · intro r i hr hi
      cases r with
      | zero =>
        have hi' : i < l.length := by rw [hl]; omega
        show ((l :: ls).flatten).getD (0 * n + i) 0 = ((l :: ls).getD 0 []).getD i 0
        rw [List.flatten_cons]
        simp [List.getD, List.getElem?_append, hi']
      | succ r' =>
        have hge : l.length ≤ (r' + 1) * n + i := by
          rw [hl, Nat.succ_mul]
          omega
        have step : ((l :: ls).flatten).getD ((r' + 1) * n + i) 0
            = (ls.flatten).getD ((r' + 1) * n + i - l.length) 0 := by
          simp only [List.flatten_cons]
          simp [List.getD, List.getElem?_append_right, hge]
        have harith : (r' + 1) * n + i - l.length = r' * n + i := by
          rw [hl, Nat.succ_mul]
          omega
        rw [show allGather (l :: ls) = (l :: ls).flatten from rfl, step, harith]
        have hr' : r' < ls.length := by
          rw [List.length_cons] at hr
          omega
        have := ihget r' i hr' hi
        rw [show allGather ls = ls.flatten from rfl] at this
        rw [this]
        simp

/-- Closed witness for claim C8: 2 workers each holding 3 local predictions; the
gathered list has 6 entries in rank order. -/
theorem allGather_rank_ordered_witness :
    (∀ l ∈ [[(1:ℤ), 2, 3], [4, 5, 6]], l.length = 3) ∧
      ((allGather [[(1:ℤ), 2, 3], [4, 5, 6]]).length = [[(1:ℤ), 2, 3], [4, 5, 6]].length * 3 ∧
        ∀ r i, r < [[(1:ℤ), 2, 3], [4, 5, 6]].length → i < 3 →
          (allGather [[(1:ℤ), 2, 3], [4, 5, 6]]).getD (r * 3 + i) 0
            = ([[(1:ℤ), 2, 3], [4, 5, 6]].getD r []).getD i 0) :=
  ⟨by decide, allGather_rank_ordered [[(1:ℤ), 2, 3], [4, 5, 6]] 3 (by decide)⟩

theorem foldMax_nonneg (l : List ℝ) : 0 ≤ foldMax l := by
  induction l with
  | nil => exact le_refl 0
  | cons x t ih => exact le_trans ih (le_max_right x (foldMax t))

theorem foldMax_cons (x : ℝ) (l : List ℝ) : foldMax (x :: l) = max x (foldMax l) := rfl

theorem foldMax_append (a b : List ℝ) : foldMax (a ++ b) = max (foldMax a) (foldMax b) := by
  induction a with
  | nil =>
    rw [List.nil_append]
    exact (max_eq_right (foldMax_nonneg b)).symm
  | cons x t ih =>
    rw [List.cons_append, foldMax_cons, foldMax_cons, ih, max_assoc]

theorem foldMax_flatten (ls : List (List ℝ)) :
    foldMax ls.flatten = foldMax (ls.map foldMax) := by
  induction ls with
  | nil => rfl
  | cons l t ih => rw [List.flatten_cons, foldMax_append, ih, List.map_cons, foldMax_cons]

theorem foldMax_map_flatten {α : Type} (f : α → ℝ) (L : List (List α)) :
    foldMax ((L.flatten).map f) = foldMax (L.map (fun l => foldMax (l.map f))) := by
  rw [List.map_flatten, foldMax_flatten, List.map_map]
  rfl

theorem sum_map_flatten {α : Type} (f : α → ℝ) (L : List (List α)) :
    ((L.flatten).map f).sum = (L.map (fun l => (l.map f).sum)).sum := by
  rw [List.map_flatten, List.sum_flatten, List.map_map]
  rfl

theorem filterMap_id_map_option_map {α β : Type} (f : α → β) (l : List (Option α)) :
    (l.map (Option.map f)).filterMap id = (l.filterMap id).map f := by
  induction l with
  | nil => rfl
  | cons h t ih => cases h <;> simp [ih]

theorem trackedGrads_scaleParams (c : ℝ) (pg : ParamGroups) :
    trackedGrads (scaleParams c pg) = (trackedGrads pg).map (scaleGrad c) := by
  unfold trackedGrads scaleParams
  rw [← List.map_flatten, filterMap_id_map_option_map]

theorem sum_abspow_nonneg (p : ℕ) (g : Grad) :
    0 ≤ (g.map (fun x => |x| ^ p)).sum := by
  apply List.sum_nonneg
  intro y hy
  rw [List.mem_map] at hy
  obtain ⟨x, _, hx⟩ := hy
  rw [← hx]
  positivity

theorem rpow_tensorNorm (p : ℕ) (hp : 1 ≤ p) (g : Grad) :
    (tensorNorm p g) ^ (p:ℝ) = (g.map (fun x => |x| ^ p)).sum := by
  unfold tensorNorm
  have hS := sum_abspow_nonneg p g
  have hp0 : (p:ℝ) ≠ 0 := Nat.cast_ne_zero.mpr (by omega)
  rw [← Real.rpow_mul hS, one_div_mul_cancel hp0, Real.rpow_one]

theorem tensorNorm_nonneg (p : ℕ) (g : Grad) : 0 ≤ tensorNorm p g :=
  Real.rpow_nonneg (sum_abspow_nonneg p g) _

theorem localPowSum_eq (p : ℕ) (hp : 1 ≤ p) (pg : ParamGroups) :
    localPowSum p pg = (((trackedGrads pg).flatten).map (fun x => |x| ^ p)).sum := by
  unfold localPowSum
  rw [sum_map_flatten]
  simp only [rpow_tensorNorm p hp]

theorem localMaxAbs_eq (pg : ParamGroups) :
    localMaxAbs pg = foldMax (((trackedGrads pg).flatten).map (fun x => |x|)) := by
  unfold localMaxAbs
  rw [foldMax_map_flatten]
  rfl

/-- Claim C1: for a non-empty gradient set distributed over the workers, the
aggregated `total_norm` equals the mathematical norm of the concatenation of all
workers' gradients: the global maximum absolute entry for `'inf'` (local per-worker
max, then cross-worker max-reduce), the p-th root of the cross-worker sum of the
per-worker power sums for a finite exponent `p ≥ 1`, and in particular
`sqrt(sum over all workers of sum of squares)` for `p = 2`. -/
theorem total_norm_is_concat_norm (world : World) (p : ℕ) (hp : 1 ≤ p)
    (hne : world ≠ [] ∧ ∀ pg ∈ world, trackedGrads pg ≠ [] ∧ ∀ g ∈ trackedGrads pg, g ≠ []) :
    total_norm NormType.inf world = specInfNorm world ∧
    total_norm (NormType.lp p) world = specLpNorm p world ∧
    total_norm (NormType.lp 2) world
      = Real.sqrt (((allGradEntries world).map (fun x => x ^ 2)).sum) := by
  have hinf : total_norm NormType.inf world = specInfNorm world := by
    show foldMax (world.map localMaxAbs) = specInfNorm world
    unfold specInfNorm allGradEntries
    rw [foldMax_map_flatten (fun x => |x|) ((world.map trackedGrads).flatten)]
    rw [foldMax_map_flatten _ (world.map trackedGrads)]
    rw [List.map_map]
    congr 1
  have hlp : ∀ p' : ℕ, 1 ≤ p' → total_norm (NormType.lp p') world = specLpNorm p' world := by
    intro p' hp'
    show ((world.map (localPowSum p')).sum) ^ (1 / (p':ℝ)) = specLpNorm p' world
    unfold specLpNorm allGradEntries
    congr 1
    rw [sum_map_flatten (fun x => |x| ^ p') ((world.map trackedGrads).flatten)]
    rw [sum_map_flatten _ (world.map trackedGrads)]
    rw [List.map_map]
    congr 1
    apply List.map_congr_left
    intro pg _
    rw [localPowSum_eq p' hp' pg, sum_map_flatten]
    rfl
  refine ⟨hinf, hlp p hp, ?_⟩
  rw [hlp 2 (by norm_num)]
  unfold specLpNorm
  have hcast : ((2:ℕ):ℝ) = 2 := by norm_num
  rw [hcast, ← Real.sqrt_eq_rpow]
  congr 2
  apply List.map_congr_left
  intro x _
  exact sq_abs x

/-- Closed witness for claim C1: two workers, with gradient tensors `[3, 4]` and
`[0, 0]` respectively, and exponent `p = 2`. -/
theorem total_norm_is_concat_norm_witness :
    ((1:ℕ) ≤ 2 ∧
      (([[[some [(3:ℝ), 4]]], [[some [0, 0]]]] : World) ≠ [] ∧
        ∀ pg ∈ ([[[some [(3:ℝ), 4]]], [[some [0, 0]]]] : World),
          trackedGrads pg ≠ [] ∧ ∀ g ∈ trackedGrads pg, g ≠ [])) ∧
    (total_norm NormType.inf [[[some [(3:ℝ), 4]]], [[some [0, 0]]]]
        = specInfNorm [[[some [(3:ℝ), 4]]], [[some [0, 0]]]] ∧
      total_norm (NormType.lp 2) [[[some [(3:ℝ), 4]]], [[some [0, 0]]]]
        = specLpNorm 2 [[[some [(3:ℝ), 4]]], [[some [0, 0]]]] ∧
      total_norm (NormType.lp 2) [[[some [(3:ℝ), 4]]], [[some [0, 0]]]]
        = Real.sqrt (((allGradEntries [[[some [(3:ℝ), 4]]], [[some [0, 0]]]]).map
            (fun x => x ^ 2)).sum)) :=
  ⟨⟨by norm_num, by constructor <;> simp [trackedGrads]⟩,
   total_norm_is_concat_norm [[[some [(3:ℝ), 4]]], [[some [0, 0]]]] 2 (by norm_num)
     (by constructor <;> simp [trackedGrads])⟩

theorem scaleParams_one (pg : ParamGroups) : scaleParams 1 pg = pg := by
  unfold scaleParams scaleGrad
  simp

/-- Claim C2: every call to `clip_grad_norm` multiplies every tracked gradient
(and only tracked gradients: parameters with `p.grad is None` are untouched) by the
factor `min(1, max_norm * scale / (total_norm + eps))`: when the coefficient is
below 1 every tracked gradient is scaled by exactly that coefficient, and when it
is at least 1 no gradient is modified; no tracked gradient is skipped. -/
theorem clip_scales_every_tracked_grad (world : World) (max_norm scale : ℝ)
    (nt : NormType) (eps : ℝ) :
    (clip_grad_norm world max_norm scale nt eps).1
      = world.map (scaleParams (min 1 (clip_coef max_norm scale (total_norm nt world) eps))) := by
  unfold clip_grad_norm
  by_cases h : clip_coef max_norm scale (total_norm nt world) eps < 1
  · rw [if_pos h, min_eq_right h.le]
  · rw [if_neg h, min_eq_left (not_lt.mp h)]
    have : world.map (scaleParams 1) = world.map id :=
      List.map_congr_left (fun pg _ => scaleParams_one pg)
    rw [this, List.map_id]

/-- Claim C5: `clip_grad_norm` always returns `total_norm / scale` — the aggregated
norm of the raw loss-scaled gradients with the loss-scale factor divided back out —
whether or not clipping happened; and the clip decision `clip_coef < 1` is the
comparison of `max_norm` against that unscaled norm (with the `eps` regulariser also
divided by `scale`). -/
theorem clip_returns_unscaled_norm (world : World) (max_norm scale : ℝ)
    (nt : NormType) (eps : ℝ) (hs : 0 < scale)
    (hpos : 0 < total_norm nt world + eps) :
    (clip_grad_norm world max_norm scale nt eps).2 = total_norm nt world / scale ∧
    (clip_coef max_norm scale (total_norm nt world) eps < 1 ↔
      max_norm < total_norm nt world / scale + eps / scale) := by
  constructor
  · rfl
  · unfold clip_coef
    rw [div_lt_one hpos, ← add_div, lt_div_iff₀ hs]

/-- Closed witness for claim C5: one worker with the single gradient `[1]`,
infinity norm, `scale = 1`, `eps = 1`. -/
theorem clip_returns_unscaled_norm_witness :
    ((0:ℝ) < 1 ∧ 0 < total_norm NormType.inf [[[some [(1:ℝ)]]]] + 1) ∧
    ((clip_grad_norm [[[some [(1:ℝ)]]]] 2 1 NormType.inf 1).2
        = total_norm NormType.inf [[[some [(1:ℝ)]]]] / 1 ∧
      (clip_coef 2 1 (total_norm NormType.inf [[[some [(1:ℝ)]]]]) 1 < 1 ↔
        2 < total_norm NormType.inf [[[some [(1:ℝ)]]]] / 1 + 1 / 1)) :=
  ⟨⟨one_pos, by
      have h : (0:ℝ) ≤ total_norm NormType.inf [[[some [(1:ℝ)]]]] :=
        foldMax_nonneg _
      linarith⟩,
   clip_returns_unscaled_norm [[[some [(1:ℝ)]]]] 2 1 NormType.inf 1 one_pos
     (by
        have h : (0:ℝ) ≤ total_norm NormType.inf [[[some [(1:ℝ)]]]] :=
          foldMax_nonneg _
        linarith)⟩

theorem foldMax_map_mul (c : ℝ) (hc : 0 ≤ c) (l : List ℝ) :
    foldMax (l.map (fun x => x * c)) = foldMax l * c := by
  induction l with
  | nil =>
    show foldMax [] = foldMax [] * c
    show (0:ℝ) = 0 * c
    rw [zero_mul]
  | cons x t ih =>
    rw [List.map_cons, foldMax_cons, foldMax_cons, ih, max_mul_of_nonneg x (foldMax t) hc]

theorem tensorMaxAbs_scale (c : ℝ) (hc : 0 ≤ c) (g : Grad) :
    tensorMaxAbs (scaleGrad c g) = tensorMaxAbs g * c := by
  unfold tensorMaxAbs scaleGrad
  rw [List.map_map]
  have habs : ((fun x => |x|) ∘ fun x => x * c) = fun x => |x| * c := by
    funext x
    show |x * c| = |x| * c
    rw [abs_mul, abs_of_nonneg hc]
  rw [habs, show (fun x : ℝ => |x| * c) = ((fun y => y * c) ∘ fun x => |x|) from rfl,
      ← List.map_map]
  exact foldMax_map_mul c hc _

theorem localMaxAbs_scale (c : ℝ) (hc : 0 ≤ c) (pg : ParamGroups) :
    localMaxAbs (scaleParams c pg) = localMaxAbs pg * c := by
  unfold localMaxAbs
  rw [trackedGrads_scaleParams, List.map_map]
  have hcomp : (tensorMaxAbs ∘ scaleGrad c) = ((fun y => y * c) ∘ tensorMaxAbs) := by
    funext g
    exact tensorMaxAbs_scale c hc g
  rw [hcomp, ← List.map_map]
  exact foldMax_map_mul c hc _

theorem sum_abspow_scale (c : ℝ) (hc : 0 ≤ c) (p : ℕ) (g : Grad) :
    ((scaleGrad c g).map (fun x => |x| ^ p)).sum
      = c ^ p * (g.map (fun x => |x| ^ p)).sum := by
  unfold scaleGrad
  rw [List.map_map]
  have hcomp : ((fun x => |x| ^ p) ∘ fun x => x * c) = fun x => c ^ p * |x| ^ p := by
    funext x
    show |x * c| ^ p = c ^ p * |x| ^ p
    rw [abs_mul, abs_of_nonneg hc, mul_pow]
    ring
  rw [hcomp, ← List.sum_map_mul_left]

theorem rpow_pow_one_div (c : ℝ) (hc : 0 ≤ c) (p : ℕ) (hp : 1 ≤ p) :
    (c ^ p : ℝ) ^ (1 / (p:ℝ)) = c := by
  have hp0 : (p:ℝ) ≠ 0 := Nat.cast_ne_zero.mpr (by omega)
  rw [← Real.rpow_natCast c p, ← Real.rpow_mul hc, mul_one_div, div_self hp0, Real.rpow_one]

theorem tensorNorm_scale (c : ℝ) (hc : 0 ≤ c) (p : ℕ) (hp : 1 ≤ p) (g : Grad) :
    tensorNorm p (scaleGrad c g) = c * tensorNorm p g := by
  unfold tensorNorm
  rw [sum_abspow_scale c hc p g,
      Real.mul_rpow (pow_nonneg hc p) (sum_abspow_nonneg p g),
      rpow_pow_one_div c hc p hp]

theorem localPowSum_scale (c : ℝ) (hc : 0 ≤ c) (p : ℕ) (hp : 1 ≤ p) (pg : ParamGroups) :
    localPowSum p (scaleParams c pg) = c ^ p * localPowSum p pg := by
  unfold localPowSum
  rw [trackedGrads_scaleParams, List.map_map]
  have hcomp : ((fun g => tensorNorm p g ^ (p:ℝ)) ∘ scaleGrad c)
      = fun g => c ^ p * tensorNorm p g ^ (p:ℝ) := by
    funext g
    show tensorNorm p (scaleGrad c g) ^ (p:ℝ) = c ^ p * tensorNorm p g ^ (p:ℝ)
    rw [tensorNorm_scale c hc p hp g,
        Real.mul_rpow hc (tensorNorm_nonneg p g), Real.rpow_natCast c p]
  rw [hcomp, ← List.sum_map_mul_left]

theorem localPowSum_nonneg (p : ℕ) (pg : ParamGroups) : 0 ≤ localPowSum p pg := by
  apply List.sum_nonneg
  intro y hy
  rw [List.mem_map] at hy
  obtain ⟨g, _, hg⟩ := hy
  rw [← hg]
  exact Real.rpow_nonneg (tensorNorm_nonneg p g) _

theorem total_norm_nonneg (nt : NormType) (world : World) : 0 ≤ total_norm nt world := by
  cases nt with
  | inf => exact foldMax_nonneg _
  | lp p =>
    exact Real.rpow_nonneg
      (List.sum_nonneg (by
        intro y hy
        rw [List.mem_map] at hy
        obtain ⟨pg, _, hpg⟩ := hy
        rw [← hpg]
        exact localPowSum_nonneg p pg)) _

theorem total_norm_scale (nt : NormType) (hnt : validNT nt) (world : World)
    (c : ℝ) (hc : 0 ≤ c) :
    total_norm nt (world.map (scaleParams c)) = c * total_norm nt world := by
  cases nt with
  | inf =>
    show foldMax ((world.map (scaleParams c)).map localMaxAbs)
      = c * foldMax (world.map localMaxAbs)
    rw [List.map_map]
    have hcomp : (localMaxAbs ∘ scaleParams c) = ((fun y => y * c) ∘ localMaxAbs) := by
      funext pg
      exact localMaxAbs_scale c hc pg
    rw [hcomp, ← List.map_map, foldMax_map_mul c hc, mul_comm]
  | lp p =>
    have hp : 1 ≤ p := hnt
    show ((world.map (scaleParams c)).map (localPowSum p)).sum ^ (1 / (p:ℝ))
      = c * (world.map (localPowSum p)).sum ^ (1 / (p:ℝ))
    rw [List.map_map]
    have hcomp : (localPowSum p ∘ scaleParams c) = fun pg => c ^ p * localPowSum p pg := by
      funext pg
      exact localPowSum_scale c hc p hp pg
    rw [hcomp, List.sum_map_mul_left,
        Real.mul_rpow (pow_nonneg hc p)
          (List.sum_nonneg (by
            intro y hy
            rw [List.mem_map] at hy
            obtain ⟨pg, _, hpg⟩ := hy
            rw [← hpg]
            exact localPowSum_nonneg p pg)),
        rpow_pow_one_div c hc p hp]

/-- Amended claim C4: calling `clip_grad_norm` a second time with the same
arguments leaves the gradients unchanged (a) whenever the first call did not clip
(coefficient at least 1), and (b) for `eps = 0` with a positive norm and positive
`max_norm * scale` — in that case the second coefficient is exactly 1.  With the
positive `eps` the code actually uses, a first call that clips makes the second
coefficient `max_norm * scale / (c * total_norm + eps)`, which is again below 1, so
the second call rescales the gradients once more (see the counterexample). -/
theorem clip_second_call_cases (world : World) (max_norm scale eps : ℝ)
    (nt : NormType) (hnt : validNT nt) :
    (¬ clip_coef max_norm scale (total_norm nt world) eps < 1 →
        (clip_grad_norm ((clip_grad_norm world max_norm scale nt eps).1)
            max_norm scale nt eps).1
          = (clip_grad_norm world max_norm scale nt eps).1) ∧
    (eps = 0 → 0 < max_norm * scale → 0 < total_norm nt world →
        (clip_grad_norm ((clip_grad_norm world max_norm scale nt eps).1)
            max_norm scale nt eps).1
          = (clip_grad_norm world max_norm scale nt eps).1) := by
  have hnoclip : ¬ clip_coef max_norm scale (total_norm nt world) eps < 1 →
      (clip_grad_norm ((clip_grad_norm world max_norm scale nt eps).1)
          max_norm scale nt eps).1
        = (clip_grad_norm world max_norm scale nt eps).1 := by
    intro h
    have h1 : (clip_grad_norm world max_norm scale nt eps).1 = world := by
      unfold clip_grad_norm
      rw [if_neg h]
    rw [h1]
    unfold clip_grad_norm
    rw [if_neg h]
  refine ⟨hnoclip, ?_⟩
  intro heps hms htn
  subst heps
  by_cases h : clip_coef max_norm scale (total_norm nt world) 0 < 1
  · have h1 : (clip_grad_norm world max_norm scale nt 0).1
        = world.map (scaleParams (clip_coef max_norm scale (total_norm nt world) 0)) := by
      unfold clip_grad_norm
      rw [if_pos h]
    have hcval : clip_coef max_norm scale (total_norm nt world) 0
        = max_norm * scale / total_norm nt world := by
      unfold clip_coef
      rw [add_zero]
    have hcpos : 0 < clip_coef max_norm scale (total_norm nt world) 0 := by
      rw [hcval]
      exact div_pos hms htn
    have htn2 : total_norm nt
        (world.map (scaleParams (clip_coef max_norm scale (total_norm nt world) 0)))
          = clip_coef max_norm scale (total_norm nt world) 0 * total_norm nt world :=
      total_norm_scale nt hnt world _ hcpos.le
    have hcoef2 : clip_coef max_norm scale
        (total_norm nt
          (world.map (scaleParams (clip_coef max_norm scale (total_norm nt world) 0)))) 0
          = 1 := by
      rw [htn2, hcval]
      unfold clip_coef
      rw [add_zero, div_mul_cancel₀ _ (ne_of_gt htn), div_self (ne_of_gt hms)]
    rw [h1]
    unfold clip_grad_norm
    rw [hcoef2, if_neg (lt_irrefl 1)]
  · exact hnoclip h

theorem pow_term_34 : (tensorNorm 2 [(3:ℝ), 4]) ^ ((2:ℕ):ℝ) = 25 := by
  rw [rpow_tensorNorm 2 (by norm_num) [(3:ℝ), 4]]
  norm_num [abs_of_nonneg]

theorem pow_term_00 : (tensorNorm 2 [(0:ℝ), 0]) ^ ((2:ℕ):ℝ) = 0 := by
  rw [rpow_tensorNorm 2 (by norm_num) [(0:ℝ), 0]]
  norm_num

theorem rpow_25_half : ((25:ℝ)) ^ (1 / ((2:ℕ):ℝ)) = 5 := by
  have h2 : ((2:ℕ):ℝ) = 2 := by norm_num
  rw [h2, ← Real.sqrt_eq_rpow, show (25:ℝ) = 5 ^ 2 by norm_num,
      Real.sqrt_sq (by norm_num : (0:ℝ) ≤ 5)]

theorem scenarioWorld_norm : total_norm (NormType.lp 2) scenarioWorld = 5 := by
  show ((scenarioWorld.map (localPowSum 2)).sum) ^ (1 / ((2:ℕ):ℝ)) = 5
  have hsum : (scenarioWorld.map (localPowSum 2)).sum = 25 := by
    show localPowSum 2 [[some [(3:ℝ), 4]]] + (localPowSum 2 [[some [(0:ℝ), 0]]] + 0) = 25
    unfold localPowSum
    show (tensorNorm 2 [(3:ℝ), 4]) ^ ((2:ℕ):ℝ) + 0
        + ((tensorNorm 2 [(0:ℝ), 0]) ^ ((2:ℕ):ℝ) + 0 + 0) = 25
    rw [pow_term_34, pow_term_00]
    norm_num
  rw [hsum, rpow_25_half]

theorem soloWorld_norm : total_norm (NormType.lp 2) soloWorld = 5 := by
  show ((soloWorld.map (localPowSum 2)).sum) ^ (1 / ((2:ℕ):ℝ)) = 5
  have hsum : (soloWorld.map (localPowSum 2)).sum = 25 := by
    show localPowSum 2 [[some [(3:ℝ), 4]]] + 0 = 25
    unfold localPowSum
    show (tensorNorm 2 [(3:ℝ), 4]) ^ ((2:ℕ):ℝ) + 0 + 0 = 25
    rw [pow_term_34]
    norm_num
  rw [hsum, rpow_25_half]

/-- Closed witness for the amended claim C4, exercising both cases on the gradient
`[3, 4]` (norm 5) with L2 norm, `scale = 1` and `eps = 0`.  With `max_norm = 6` the
coefficient is `6/5`, so case (a)'s no-clip antecedent holds and the second call
changes nothing.  With `max_norm = 1` the coefficient is `1/5 < 1` — the first call
genuinely clips — and case (b) (whose `eps = 0`, `0 < max_norm * scale` and
`0 < total_norm` antecedents all hold) still gives an unchanged second call. -/
theorem clip_second_call_cases_witness :
    (validNT (NormType.lp 2) ∧
      ¬ clip_coef 6 1 (total_norm (NormType.lp 2) soloWorld) 0 < 1 ∧
      (clip_grad_norm ((clip_grad_norm soloWorld 6 1 (NormType.lp 2) 0).1)
          6 1 (NormType.lp 2) 0).1
        = (clip_grad_norm soloWorld 6 1 (NormType.lp 2) 0).1) ∧
    ((0:ℝ) = 0 ∧ (0:ℝ) < 1 * 1 ∧ 0 < total_norm (NormType.lp 2) soloWorld ∧
      clip_coef 1 1 (total_norm (NormType.lp 2) soloWorld) 0 < 1 ∧
      (clip_grad_norm ((clip_grad_norm soloWorld 1 1 (NormType.lp 2) 0).1)
          1 1 (NormType.lp 2) 0).1
        = (clip_grad_norm soloWorld 1 1 (NormType.lp 2) 0).1) := by
  have hnt : validNT (NormType.lp 2) := by norm_num [validNT]
  have htn : (0:ℝ) < total_norm (NormType.lp 2) soloWorld := by
    rw [soloWorld_norm]
    norm_num
  have hnoclip : ¬ clip_coef 6 1 (total_norm (NormType.lp 2) soloWorld) 0 < 1 := by
    unfold clip_coef
    rw [soloWorld_norm]
    norm_num
  have hclip : clip_coef 1 1 (total_norm (NormType.lp 2) soloWorld) 0 < 1 := by
    unfold clip_coef
    rw [soloWorld_norm]
    norm_num
  exact ⟨⟨hnt, hnoclip,
           (clip_second_call_cases soloWorld 6 1 0 (NormType.lp 2) hnt).1 hnoclip⟩,
         ⟨rfl, by norm_num, htn, hclip,
           (clip_second_call_cases soloWorld 1 1 0 (NormType.lp 2) hnt).2 rfl
             (by norm_num) htn⟩⟩

/-- Counterexample to claim C3 as stated: with the default `eps = 1e-6` the code
computes `clip_coef = 1*1 / (5 + 1e-6)`, which is not the claimed `0.2`. -/
theorem clip_scenario_coef_ne :
    clip_coef 1 1 (total_norm (NormType.lp 2) scenarioWorld) (1/1000000) ≠ 1/5 := by
  unfold clip_coef
  rw [scenarioWorld_norm]
  norm_num

/-- Amended claim C3: in the two-worker scenario the returned global norm is exactly
5 (the `eps` regulariser does not enter the returned value); the clip coefficient is
`1 / (5 + eps)` — exactly `0.2` only for `eps = 0`, in which case worker 1's
gradient becomes `[0.6, 0.8]` and worker 2's stays `[0, 0]`; with the default
`eps = 1e-6` the coefficient falls slightly below `0.2`. -/
theorem clip_scenario_exact :
    (clip_grad_norm scenarioWorld 1 1 (NormType.lp 2) (1/1000000)).2 = 5 ∧
    clip_coef 1 1 (total_norm (NormType.lp 2) scenarioWorld) 0 = 1/5 ∧
    (clip_grad_norm scenarioWorld 1 1 (NormType.lp 2) 0).1
      = [[[some [(3:ℝ)/5, 4/5]]], [[some [0, 0]]]] ∧
    (clip_grad_norm scenarioWorld 1 1 (NormType.lp 2) 0).2 = 5 := by
  have hcoef0 : clip_coef 1 1 (total_norm (NormType.lp 2) scenarioWorld) 0 = 1/5 := by
    unfold clip_coef
    rw [scenarioWorld_norm]
    norm_num
  refine ⟨?_, hcoef0, ?_, ?_⟩
  · show total_norm (NormType.lp 2) scenarioWorld / 1 = 5
    rw [scenarioWorld_norm]
    norm_num
  · unfold clip_grad_norm
    rw [hcoef0, if_pos (by norm_num : (1:ℝ)/5 < 1)]
    show scenarioWorld.map (scaleParams (1/5)) = [[[some [(3:ℝ)/5, 4/5]]], [[some [0, 0]]]]
    simp [scenarioWorld, scaleParams, scaleGrad]
    norm_num
  · show total_norm (NormType.lp 2) scenarioWorld / 1 = 5
    rw [scenarioWorld_norm]
    norm_num

/-- Counterexample to claim C4 as stated: with gradient `[3, 4]`, `max_norm = 1`,
`scale = 1`, L2 norm and `eps = 1`, the first call clips by `1/6`, and the second
call clips again (by `6/11`), changing the gradients further. -/
theorem clip_not_idempotent :
    (clip_grad_norm ((clip_grad_norm soloWorld 1 1 (NormType.lp 2) 1).1)
        1 1 (NormType.lp 2) 1).1
      ≠ (clip_grad_norm soloWorld 1 1 (NormType.lp 2) 1).1 := by
  have hc1 : clip_coef 1 1 (total_norm (NormType.lp 2) soloWorld) 1 = 1/6 := by
    unfold clip_coef
    rw [soloWorld_norm]
    norm_num
  have h1 : (clip_grad_norm soloWorld 1 1 (NormType.lp 2) 1).1
      = soloWorld.map (scaleParams (1/6)) := by
    unfold clip_grad_norm
    rw [hc1, if_pos (by norm_num : (1:ℝ)/6 < 1)]
  have hn2 : total_norm (NormType.lp 2) (soloWorld.map (scaleParams (1/6))) = 1/6 * 5 := by
    rw [total_norm_scale (NormType.lp 2) (by norm_num : (1:ℕ) ≤ 2) soloWorld (1/6)
          (by norm_num), soloWorld_norm]
  have hc2 : clip_coef 1 1
      (total_norm (NormType.lp 2) (soloWorld.map (scaleParams (1/6)))) 1 = 6/11 := by
    unfold clip_coef
    rw [hn2]
    norm_num
  have h2 : (clip_grad_norm (soloWorld.map (scaleParams (1/6))) 1 1 (NormType.lp 2) 1).1
      = (soloWorld.map (scaleParams (1/6))).map (scaleParams (6/11)) := by
    unfold clip_grad_norm
    rw [hc2, if_pos (by norm_num : (6:ℝ)/11 < 1)]
  rw [h1, h2]
  intro heq
  simp [soloWorld, scaleParams, scaleGrad] at heq
  norm_num at heq

/-- Claim C10: `forward` returns the raw lookup `OpEmbedding(ids, weight)` divided
by `sqrt(embedding_size)` when `length_scale` is true, and returns it unmodified
when `length_scale` is false; symmetrically `projection` returns the linear
projection of the transposed input against the same shared weight matrix, with the
input divided by `sqrt(embedding_size)` beforehand exactly when `length_scale` is
true.  Both methods are pure readers of the module state: the stored weight is
never modified. -/
theorem embedding_length_scale (e : Embedding) (ids : List ℕ) (x : List (List ℝ)) :
    (e.length_scale = true →
        e.forward ids = (OpEmbedding ids e.weight).map
            (List.map (fun v => v / Real.sqrt e.dim_model)) ∧
        e.projection x = F_linear (ct_transpose
            (x.map (List.map (fun v => v / Real.sqrt e.dim_model)))) e.weight) ∧
    (e.length_scale = false →
        e.forward ids = OpEmbedding ids e.weight ∧
        e.projection x = F_linear (ct_transpose x) e.weight) := by
  constructor
  · intro h
    constructor <;> simp [Embedding.forward, Embedding.projection, h]
  · intro h
    constructor <;> simp [Embedding.forward, Embedding.projection, h]

/-- Closed witness for claim C10 at a concrete module with `length_scale = true`,
weight `[[1, 2], [3, 4]]` and `dim_model = 2`. -/
theorem embedding_length_scale_witness :
    (Embedding.mk [[(1:ℝ), 2], [3, 4]] 2 true).length_scale = true ∧
    ((Embedding.mk [[(1:ℝ), 2], [3, 4]] 2 true).forward [1]
        = (OpEmbedding [1] [[(1:ℝ), 2], [3, 4]]).map
            (List.map (fun v => v / Real.sqrt ((2:ℕ):ℝ))) ∧
      (Embedding.mk [[(1:ℝ), 2], [3, 4]] 2 true).projection [[1], [0]]
        = F_linear (ct_transpose
            (([[(1:ℝ)], [0]]).map (List.map (fun v => v / Real.sqrt ((2:ℕ):ℝ)))))
            [[(1:ℝ), 2], [3, 4]]) :=
  ⟨rfl, (embedding_length_scale (Embedding.mk [[(1:ℝ), 2], [3, 4]] 2 true) [1] [[1], [0]]).1 rfl⟩

